import Mathlib

/-! Point-of-view tree (`solutions/go/pov/1/pov.go`).

The Go `Tree` is a mutable record reached through pointers, and its `children`
field is a slice: a window on a backing array that other slices may share. The
embedding keeps both. A heap holds the records and the backing arrays; a
`*Tree` is an index into the records (`none` is nil); a slice is a header with
array, offset, length and capacity. `append` writes into the backing array when
the capacity suffices and allocates a new array otherwise, as in Go. Recursion
through pointers is not structural, so the recursive operations take a fuel
argument; `none` as an outcome means that the fuel ran out or that the program
panicked (a nil pointer was dereferenced).
-/

namespace Pov

/-- A Go slice header for `[]*Tree`: the backing array, the offset of the first
element in it, the length and the capacity. -/
structure Slice where
  arr : Nat
  off : Nat
  len : Nat
  cap : Nat
deriving DecidableEq, Repr

/-- The Go struct `Tree`: a label and the slice of child pointers. -/
structure Tree where
  value : String
  children : Slice
deriving DecidableEq, Repr

/-- The memory: all allocated `Tree` records and all backing arrays of
`*Tree` cells (`none` is a nil pointer). -/
structure Heap where
  nodes : List Tree
  arrays : List (List (Option Nat))
deriving DecidableEq, Repr

/-- The nil slice. -/
def nilSlice : Slice := { arr := 0, off := 0, len := 0, cap := 0 }

/-- The elements of a slice, `s[0]` to `s[len(s)-1]`. -/
def readSlice (h : Heap) (s : Slice) : Option (List (Option Nat)) :=
  if s.len = 0 then some []
  else
    match h.arrays[s.arr]? with
    | none => none
    | some a => if s.off + s.len ≤ a.length then some ((a.drop s.off).take s.len) else none

/-- Go `s[lo:hi]`: same array, capacity up to the end of `s`'s capacity. -/
def subslice (s : Slice) (lo hi : Nat) : Slice :=
  { arr := s.arr, off := s.off + lo, len := hi - lo, cap := s.cap - lo }

/-- Overwrites the cells of `a` from position `i` on with `xs`. -/
def writeAt (a : List (Option Nat)) (i : Nat) (xs : List Nat) : List (Option Nat) :=
  a.take i ++ xs.map some ++ a.drop (i + xs.length)

/-- Go `append(s, xs...)` for a non-empty `xs`. With enough capacity the cells
after the last element of `s` are overwritten in the backing array of `s`,
whoever else looks at them; otherwise the elements move to a new array, whose
capacity `grow cap(s) n` is the runtime's choice (at least the `n` cells
needed; the fresh cells are nil). -/
def appendSlice (grow : Nat → Nat → Nat) (h : Heap) (s : Slice) (xs : List Nat) :
    Option (Heap × Slice) :=
  if s.len + xs.length ≤ s.cap then
    match h.arrays[s.arr]? with
    | none => none
    | some a =>
      some ({ h with arrays := h.arrays.set s.arr (writeAt a (s.off + s.len) xs) },
        { s with len := s.len + xs.length })
  else
    match readSlice h s with
    | none => none
    | some old =>
      let n := s.len + xs.length
      let c := max (grow s.cap n) n
      some ({ h with arrays := h.arrays ++ [old ++ xs.map some ++ List.replicate (c - n) none] },
        { arr := h.arrays.length, off := 0, len := n, cap := c })

/-- A growth policy: double the capacity, or take what is needed if that is
more. The Go runtime does so for slices of fewer than 256 pointers and then
rounds up to an allocation size; capacities of up to 4 cells, the only ones the
sample trees below reach, are not rounded. -/
def doubling (cap n : Nat) : Nat := max (2 * cap) n

/-- Go composite literal `[]*Tree{x1, ..., xn}`: a new array holding exactly
the listed pointers, and the slice over all of it. -/
def newArray (h : Heap) (xs : List Nat) : Heap × Slice :=
  ({ h with arrays := h.arrays ++ [xs.map some] },
    { arr := h.arrays.length, off := 0, len := xs.length, cap := xs.length })

/-- Go `New(value, children...)` with a slice passed as `children...`: the
record keeps the caller's slice as it is, backing array included. -/
def New (h : Heap) (value : String) (children : Slice) : Heap × Nat :=
  ({ h with nodes := h.nodes ++ [{ value := value, children := children }] }, h.nodes.length)

/-- Go `New(value, x1, ..., xn)` with the children listed: the variadic
parameter is nil for no argument and a slice over a new array of exactly the
arguments otherwise. -/
def NewOf (h : Heap) (value : String) (xs : List Nat) : Heap × Nat :=
  if xs = [] then New h value nilSlice
  else New (newArray h xs).1 value (newArray h xs).2

/-- Go `tr.Value()`. -/
def Value (h : Heap) (tr : Nat) : Option String :=
  (h.nodes[tr]?).map (fun n => n.value)

/-- Go `tr.Children()`, as the elements of the returned slice. -/
def Children (h : Heap) (tr : Nat) : Option (List (Option Nat)) :=
  match h.nodes[tr]? with
  | none => none
  | some n => readSlice h n.children

/-- The assignment `tr.children = s`. -/
def setChildren (h : Heap) (tr : Nat) (s : Slice) : Option Heap :=
  match h.nodes[tr]? with
  | none => none
  | some n => some { h with nodes := h.nodes.set tr { n with children := s } }

/-- The deferred closure of `fromPovInternal`:
`if tested != nil { tr.children = append(tr.children, tested...) }`.
The local slice `tested` is built by `append` from nil and its array is never
stored, so it is given by its elements; it is nil exactly when it is empty. -/
def restoreTested (grow : Nat → Nat → Nat) (h : Heap) (tr : Nat) (tested : List Nat) :
    Option Heap :=
  if tested = [] then some h
  else
    match h.nodes[tr]? with
    | none => none
    | some n =>
      match appendSlice grow h n.children tested with
      | none => none
      | some (h1, s) => setChildren h1 tr s

/-- The outcome of `fromPovInternal`: the heap after the call and the two
returned pointers (`none` is Go's `nil`). -/
abbrev PovResult := Heap × Option Nat × Option Nat

mutual
/-- Go `tr.fromPovInternal(from)`. -/
def fromPovInternal (grow : Nat → Nat → Nat) :
    Nat → Heap → Nat → String → Option PovResult
  | 0, _, _, _ => none
  | fuel + 1, h, tr, frm =>
    match h.nodes[tr]? with
    | none => none
    | some n =>
      if frm = n.value then some (h, some tr, some tr)
      else fromPovLoop grow fuel h tr frm []
/-- The loop `for len(tr.children) > 0 { ... }` of `fromPovInternal`, entered
with the current elements of the local `tested`; it ends with the `return` of
the function, after which the deferred closure runs. -/
def fromPovLoop (grow : Nat → Nat → Nat) :
    Nat → Heap → Nat → String → List Nat → Option PovResult
  | 0, _, _, _, _ => none
  | fuel + 1, h, tr, frm, tested =>
    match h.nodes[tr]? with
    | none => none
    | some n =>
      if n.children.len = 0 then
        match restoreTested grow h tr tested with
        | none => none
        | some h1 => some (h1, none, none)
      else
        match readSlice h (subslice n.children 0 1) with
        | some [some child] =>
          match setChildren h tr (subslice n.children 1 n.children.len) with
          | none => none
          | some h1 =>
            match fromPovInternal grow fuel h1 child frm with
            | none => none
            | some (h2, some node, root) =>
              match h2.nodes[node]? with
              | none => none
              | some nd =>
                match appendSlice grow h2 nd.children [tr] with
                | none => none
                | some (h3, s) =>
                  match setChildren h3 node s with
                  | none => none
                  | some h4 =>
                    match restoreTested grow h4 tr tested with
                    | none => none
                    | some h5 => some (h5, some tr, root)
            | some (h2, none, _) => fromPovLoop grow fuel h2 tr frm (tested ++ [child])
        | _ => none
end

/-- Go `tr.FromPov(from)`: the heap after the call and the returned pointer. -/
def FromPov (grow : Nat → Nat → Nat) (fuel : Nat) (h : Heap) (tr : Nat) (frm : String) :
    Option (Heap × Option Nat) :=
  match fromPovInternal grow fuel h tr frm with
  | none => none
  | some (h1, _, root) => some (h1, root)

mutual
/-- Go `tr.pathTo(from)`; the inner `none` is the nil slice, `some []` the
empty non-nil slice `[]string{}`. The string slices are built by `append` from
fresh values and never shared, so they are given by their elements. -/
def pathTo : Nat → Heap → Nat → String → Option (Option (List String))
  | 0, _, _, _ => none
  | fuel + 1, h, tr, frm =>
    match h.nodes[tr]? with
    | none => none
    | some n =>
      if n.value = frm then some (some [])
      else
        match readSlice h n.children with
        | none => none
        | some cs => pathToLoop fuel h cs frm
/-- The loop `for _, child := range tr.children { ... }` of `pathTo` over the
elements still to visit. -/
def pathToLoop : Nat → Heap → List (Option Nat) → String → Option (Option (List String))
  | 0, _, _, _ => none
  | _ + 1, _, [], _ => some none
  | _ + 1, _, none :: _, _ => none
  | fuel + 1, h, some child :: rest, frm =>
    match pathTo fuel h child frm with
    | none => none
    | some (some path) =>
      match h.nodes[child]? with
      | none => none
      | some c => some (some (path ++ [c.value]))
    | some none => pathToLoop fuel h rest frm
end

/-- Go `tr.PathTo(from, to)`: the heap after the call and the returned slice. -/
def PathTo (grow : Nat → Nat → Nat) (fuel : Nat) (h : Heap) (tr : Nat) (frm dst : String) :
    Option (Heap × Option (List String)) :=
  match FromPov grow fuel h tr dst with
  | none => none
  | some (h1, none) => some (h1, none)
  | some (h1, some tr1) =>
    match pathTo fuel h1 tr1 frm with
    | none => none
    | some none => some (h1, none)
    | some (some path) => some (h1, some (path ++ [dst]))

/-- The empty memory. -/
def emptyHeap : Heap := { nodes := [], arrays := [] }

/-- The sample tree `x(a(b(c,d), e), f(g, h(i,j)))` built bottom-up by calls of
`New` with the children listed. -/
def sampleTree : Heap × Nat :=
  let (h, c) := NewOf emptyHeap "c" []
  let (h, d) := NewOf h "d" []
  let (h, b) := NewOf h "b" [c, d]
  let (h, e) := NewOf h "e" []
  let (h, a) := NewOf h "a" [b, e]
  let (h, g) := NewOf h "g" []
  let (h, i) := NewOf h "i" []
  let (h, j) := NewOf h "j" []
  let (h, hh) := NewOf h "h" [i, j]
  let (h, f) := NewOf h "f" [g, hh]
  NewOf h "x" [a, f]

/-- The tree `x(b(c,d), a(e))` built as
`all := []*Tree{c, d, e}; b := New("b", all[:2]...); a := New("a", all[2:]...);
x := New("x", b, a)`: the children of `b` and of `a` lie in one array. -/
def sharedTree : Heap × Nat :=
  let (h, c) := NewOf emptyHeap "c" []
  let (h, d) := NewOf h "d" []
  let (h, e) := NewOf h "e" []
  let (h, all) := newArray h [c, d, e]
  let (h, b) := New h "b" (subslice all 0 2)
  let (h, a) := New h "a" (subslice all 2 3)
  NewOf h "x" [b, a]

/-- The same tree `x(b(c,d), a(e))` built by calls of `New` with the children
listed, at the same addresses. -/
def unsharedTree : Heap × Nat :=
  let (h, c) := NewOf emptyHeap "c" []
  let (h, d) := NewOf h "d" []
  let (h, e) := NewOf h "e" []
  let (h, b) := NewOf h "b" [c, d]
  let (h, a) := NewOf h "a" [e]
  NewOf h "x" [b, a]

/-- The tree `x(p(c1), q(L))` built as
`all := []*Tree{c1, L}; p := New("p", all[:1]...); q := New("q", all[1:]...);
x := New("x", p, q)`: the children of `p` and of `q` lie in one array. -/
def sharedPair : Heap × Nat :=
  let (h, c1) := NewOf emptyHeap "c1" []
  let (h, l) := NewOf h "L" []
  let (h, all) := newArray h [c1, l]
  let (h, p) := New h "p" (subslice all 0 1)
  let (h, q) := New h "q" (subslice all 1 2)
  NewOf h "x" [p, q]

/-! ## Trees

A tree in the sense of the specification is a finite, acyclic, unshared pointer
structure. `Rose` is the mathematical tree such a structure unfolds to; each
node remembers the address of its record. `represents h t` says that the records
reachable from `t.addr` in the heap `h`, read through their `children` slices,
unfold to `t`. It says nothing on where the slices lie in memory. -/

/-- A finite tree of records: address, label, children in slice order. -/
inductive Rose where
  | node (addr : Nat) (value : String) (kids : List Rose)
deriving Repr

namespace Rose

/-- The address of the root record. -/
def addr : Rose → Nat
  | node a _ _ => a

/-- The label of the root. -/
def value : Rose → String
  | node _ v _ => v

/-- The children of the root, in order. -/
def kids : Rose → List Rose
  | node _ _ ks => ks

mutual
/-- All nodes of a tree as (address, label) pairs, in preorder. -/
def nodes : Rose → List (Nat × String)
  | node a v ks => (a, v) :: nodesKids ks
/-- The nodes of a list of trees. -/
def nodesKids : List Rose → List (Nat × String)
  | [] => []
  | k :: ks => nodes k ++ nodesKids ks
end

/-- The addresses of all records of a tree. -/
def addrs (t : Rose) : List Nat := (nodes t).map Prod.fst

/-- The labels of all nodes of a tree. -/
def labels (t : Rose) : List String := (nodes t).map Prod.snd

mutual
/-- The number of nodes. -/
def size : Rose → Nat
  | node _ _ ks => 1 + sizeKids ks
/-- The number of nodes of a list of trees. -/
def sizeKids : List Rose → Nat
  | [] => 0
  | k :: ks => size k + sizeKids ks
end

mutual
/-- The parent/child relationships of a tree as (parent label, child label) pairs. -/
def edges : Rose → List (String × String)
  | node _ v ks => ks.map (fun k => (v, value k)) ++ edgesKids ks
/-- The parent/child relationships inside a list of trees. -/
def edgesKids : List Rose → List (String × String)
  | [] => []
  | k :: ks => edges k ++ edgesKids ks
end

end Rose

mutual
/-- The records reachable from `t.addr` in `h` unfold to the tree `t`. -/
def represents (h : Heap) : Rose → Bool
  | Rose.node a v ks =>
    (match h.nodes[a]? with
      | none => false
      | some n =>
        decide (n.value = v) &&
          decide (readSlice h n.children = some (ks.map (fun k => some (Rose.addr k))))) &&
      representsKids h ks
/-- Every tree of the list is represented in `h`. -/
def representsKids (h : Heap) : List Rose → Bool
  | [] => true
  | k :: ks => represents h k && representsKids h ks
end

/-- A tree at `t.addr` in the heap `h`: the reachable records unfold to `t` and
no record is reached twice (no sharing of records, no cycle). -/
def IsTree (h : Heap) (t : Rose) : Prop :=
  represents h t = true ∧ (Rose.addrs t).Nodup

instance (h : Heap) (t : Rose) : Decidable (IsTree h t) :=
  inferInstanceAs (Decidable (represents h t = true ∧ (Rose.addrs t).Nodup))

/-- A well-formed tree: a tree whose labels are pairwise distinct. -/
def WellFormed (h : Heap) (t : Rose) : Prop :=
  IsTree h t ∧ (Rose.labels t).Nodup

instance (h : Heap) (t : Rose) : Decidable (WellFormed h t) :=
  inferInstanceAs (Decidable (IsTree h t ∧ (Rose.labels t).Nodup))

/-- Fuel that suffices for `fromPovInternal`, `pathTo` and their callers on a
tree of this size. -/
def enoughFuel (t : Rose) : Nat := 2 * Rose.size t

/-- Two trees with the same root label, the same labels and the same
parent/child relationships: they differ at most in the order of siblings. -/
def SameUpToSiblingOrder (t t' : Rose) : Prop :=
  t.value = t'.value ∧ (Rose.labels t).Perm (Rose.labels t') ∧
    (Rose.edges t).Perm (Rose.edges t')

instance (t t' : Rose) : Decidable (SameUpToSiblingOrder t t') :=
  inferInstanceAs (Decidable (t.value = t'.value ∧ (Rose.labels t).Perm (Rose.labels t') ∧
    (Rose.edges t).Perm (Rose.edges t')))

/-- The heap after a call that returned (the empty memory if it did not). -/
def heapAfter {α : Type} (outcome : Option (Heap × α)) : Heap :=
  match outcome with
  | some r => r.1
  | none => emptyHeap

/-- The sample tree as a mathematical tree at the addresses `sampleTree` allocates. -/
def sampleRose : Rose :=
  .node 10 "x" [
    .node 4 "a" [.node 2 "b" [.node 0 "c" [], .node 1 "d" []], .node 3 "e" []],
    .node 9 "f" [.node 5 "g" [], .node 8 "h" [.node 6 "i" [], .node 7 "j" []]]]

/-- The tree `x(b(c,d), a(e))` at the addresses `sharedTree` and `unsharedTree`
allocate. -/
def smallRose : Rose :=
  .node 5 "x" [.node 3 "b" [.node 0 "c" [], .node 1 "d" []], .node 4 "a" [.node 2 "e" []]]

/-- The tree `x(p(c1), q(L))` at the addresses `sharedPair` allocates. -/
def pairRose : Rose :=
  .node 4 "x" [.node 2 "p" [.node 0 "c1" []], .node 3 "q" [.node 1 "L" []]]

end Pov

/-! ## Letter frequencies (`solutions/go/parallel-letter-frequency/1/parallel_letter_frequency.go`)

The goroutines of `ConcurrentFrequency` only compute a map each and send it on
a buffered channel; what the scheduler decides shows in the order in which the
main loop receives the maps and in the order in which `range` visits the
entries of a map. A run is given by these orders. -/

namespace Letter

/-- Go `type FreqMap map[rune]int`, as its list of entries; the keys of a map
are pairwise distinct. A rune read from a string by `range` is a Unicode scalar
value, a `Char`; a count is never negative and is bounded by the number of runes
held in memory, so `int` does not overflow and is a `Nat` here. -/
abbrev FreqMap := List (Char × Nat)

/-- Go `m[r]` with the comma-ok form: the entry for `r`, if there is one. -/
def lookup (m : FreqMap) (r : Char) : Option Nat :=
  match m with
  | [] => none
  | (k, c) :: rest => if k = r then some c else lookup rest r

/-- Go `m[r] += v` (and `m[r]++` for `v = 1`): a missing key reads as `0`. -/
def add (m : FreqMap) (r : Char) (v : Nat) : FreqMap :=
  match m with
  | [] => [(r, 0 + v)]
  | (k, c) :: rest => if k = r then (k, c + v) :: rest else (k, c) :: add rest r v

/-- The loop `for _, r := range text { frequencies[r]++ }`. -/
def countRunes (text : String) (frequencies : FreqMap) : FreqMap :=
  text.data.foldl (fun m r => add m r 1) frequencies

/-- Go `Frequency(text)`. -/
def Frequency (text : String) : FreqMap := countRunes text []

/-- Go `FrequencyLine(text, frequencies)`: the map after the call. -/
def FrequencyLine (text : String) (frequencies : FreqMap) : FreqMap :=
  countRunes text frequencies

/-- Go `SequentialFrequency(texts)`. -/
def SequentialFrequency (texts : List String) : FreqMap :=
  texts.foldl (fun frequencies text => FrequencyLine text frequencies) []

/-- Go `FrequencyChannel(text, ch)`: the map the goroutine sends on `ch`. -/
def FrequencyChannel (text : String) : FreqMap := countRunes text []

/-- The loop `for k, v := range m { frequencies[k] += v }` over the entries of
a received map, in the order the iteration yields them. -/
def mergeInto (frequencies : FreqMap) (m : FreqMap) : FreqMap :=
  m.foldl (fun f e => add f e.1 e.2) frequencies

/-- Go `ConcurrentFrequency(texts)`, given what the scheduler decides: the
list `received` of the maps in the order they come out of the channel, each one
as its entries in the order `range` iterates over them. -/
def ConcurrentFrequency (received : List FreqMap) : FreqMap :=
  received.foldl mergeInto []

/-- The runs `ConcurrentFrequency(texts)` can take: every goroutine sends the
map of its text once, the main loop receives these maps in any order, and
`range` goes through the entries of each map in any order. -/
def IsRun (texts : List String) (received : List FreqMap) : Prop :=
  ∃ sent : List FreqMap, sent.Perm (texts.map FrequencyChannel) ∧
    List.Forall₂ List.Perm received sent

/-- The number of occurrences of `r` over all the texts. -/
def occurrences (texts : List String) (r : Char) : Nat :=
  (texts.map (fun text => text.data.count r)).sum

/-- The total of the counts for `r` in a list of maps. -/
def totalOf (ms : List FreqMap) (r : Char) : Nat :=
  (ms.map (fun m => (lookup m r).getD 0)).sum

end Letter

/-! ## Log lines (`solutions/go/logs-logs-logs/1/logs_logs_logs.go`) -/

namespace Logs

/-- The runes that have a UTF-8 encoding: the Unicode scalar values, `0` to
`0x10FFFF` without the surrogates `0xD800` to `0xDFFF`. A Go `rune` is an
`int32`, an `Int` here; the arguments of `Replace` may be any of them. -/
def validRune (r : Int) : Bool :=
  (0 ≤ r && r < 0xD800) || (0xDFFF < r && r ≤ 0x10FFFF)

/-- Go `utf8.RuneError`, `U+FFFD`. -/
def runeError : Int := 0xFFFD

/-- A Go string as the sequence of runes that `range` and `[]rune(s)` decode
from it. Decoding yields a scalar value for every well-formed sequence and
`U+FFFD` for every other byte, so this is a list of `Char`. -/
abbrev GoString := List Char

/-- Go `[]rune(s)`. -/
def toRunes (s : GoString) : List Int := s.map (fun c => (c.toNat : Int))

/-- The rune a single rune becomes in `string(runes)`: itself if it can be
encoded, `U+FFFD` otherwise. -/
def encodable (r : Int) : Int := if validRune r then r else runeError

/-- Go `string(runes)`: the concatenation of the encodings of the runes, a rune
without an encoding being written as `U+FFFD`. -/
def ofRunes (runes : List Int) : GoString :=
  runes.map (fun r => Char.ofNat (encodable r).toNat)

/-- The loop `for idx, ch := range runes { if ch == oldRune { runes[idx] = newRune } }`
from index `idx` on, with `n` elements still to visit. -/
def replaceLoop (oldRune newRune : Int) : Nat → Nat → List Int → List Int
  | 0, _, runes => runes
  | n + 1, idx, runes =>
    match runes[idx]? with
    | none => runes
    | some ch =>
      replaceLoop oldRune newRune n (idx + 1)
        (if ch = oldRune then runes.set idx newRune else runes)

/-- Go `Replace(log, oldRune, newRune)`. -/
def Replace (log : GoString) (oldRune newRune : Int) : GoString :=
  let runes := toRunes log
  ofRunes (replaceLoop oldRune newRune runes.length 0 runes)

end Logs

namespace Pov

/-! ## Basic facts -/

theorem represents_root {h : Heap} {t : Rose} (ht : represents h t = true) :
    ∃ n, h.nodes[t.addr]? = some n ∧ n.value = t.value := by
  cases t with
  | node a v ks =>
    rw [represents] at ht
    cases hn : h.nodes[a]? with
    | none => simp [hn] at ht
    | some n =>
      simp only [hn, Bool.and_eq_true, decide_eq_true_eq] at ht
      exact ⟨n, hn, ht.1.1⟩

theorem size_pos (t : Rose) : 0 < Rose.size t := by
  cases t
  rw [Rose.size]
  omega

/-- C6: for every tree `t` with root label `R`, `FromPov(R)` is a no-op: it
returns the receiver itself and leaves every record and every backing array of
the heap as it was. -/
theorem C6_fromPov_root_noop (grow : Nat → Nat → Nat) (h : Heap) (t : Rose) (fuel : Nat)
    (ht : IsTree h t) (hfuel : enoughFuel t ≤ fuel) :
    ∃ h', FromPov grow fuel h t.addr t.value = some (h', some t.addr) ∧ h' = h ∧
      ∀ a, Children h' a = Children h a := by
  obtain ⟨f, rfl⟩ : ∃ f, fuel = f + 1 :=
    ⟨fuel - 1, by have := size_pos t; unfold enoughFuel at hfuel; omega⟩
  obtain ⟨n, hn, hv⟩ := represents_root ht.1
  refine ⟨h, ?_, rfl, fun _ => rfl⟩
  rw [FromPov, fromPovInternal]
  simp [hn, hv]

theorem C6_fromPov_root_noop_witness :
    IsTree sampleTree.1 sampleRose ∧
      ∃ h', FromPov doubling 22 sampleTree.1 sampleRose.addr sampleRose.value =
          some (h', some sampleRose.addr) ∧ h' = sampleTree.1 ∧
        ∀ a, Children h' a = Children sampleTree.1 a :=
  ⟨by decide, C6_fromPov_root_noop doubling sampleTree.1 sampleRose 22 (by decide) (by decide)⟩

/-- C14: on the tree `x(a(b(c,d), e), f(g, h(i,j)))` built with `New`,
`FromPov("b")` returns the record of `b`, and the heap then holds the tree rooted
at `b` with children `c`, `d`, `a`, where `a` has children `e`, `x` and `x` has the
single child `f` with its subtree `f(g, h(i,j))` as before. -/
theorem C14_sample_fromPov_b :
    ∃ h' r, FromPov doubling 22 sampleTree.1 sampleTree.2 "b" = some (h', some r) ∧
      Value h' r = some "b" ∧
      represents h'
        (.node r "b" [.node 0 "c" [], .node 1 "d" [],
          .node 4 "a" [.node 3 "e" [],
            .node 10 "x" [.node 9 "f" [.node 5 "g" [],
              .node 8 "h" [.node 6 "i" [], .node 7 "j" []]]]]]) = true :=
  ⟨heapAfter (FromPov doubling 22 sampleTree.1 sampleTree.2 "b"), 2, by decide!, by decide!,
    by decide!⟩

/-- C15: on the freshly built tree `x(a(b(c,d), e), f(g, h(i,j)))`,
`PathTo("x", "i")` returns `["x", "f", "h", "i"]` and `PathTo("c", "j")` returns
`["c", "b", "a", "x", "f", "h", "j"]`. -/
theorem C15_sample_paths :
    (PathTo doubling 22 sampleTree.1 sampleTree.2 "x" "i").map Prod.snd =
        some (some ["x", "f", "h", "i"]) ∧
      (PathTo doubling 22 sampleTree.1 sampleTree.2 "c" "j").map Prod.snd =
        some (some ["c", "b", "a", "x", "f", "h", "j"]) :=
  ⟨by decide!, by decide!⟩

/-- C11, at the failing input: on the sample tree `PathTo("q", "b")`, with `"q"`
absent and `"b"` present below the root, returns nil, yet the receiver `x` has
lost its child `a`: the tree was re-rooted at `b` and never put back. -/
theorem C11_pathTo_notFound_leaves_rerooted :
    IsTree sampleTree.1 sampleRose ∧ "q" ∉ Rose.labels sampleRose ∧
      "b" ∈ Rose.labels sampleRose ∧
      ∃ h', PathTo doubling 22 sampleTree.1 sampleTree.2 "q" "b" = some (h', none) ∧
        Children sampleTree.1 sampleTree.2 = some [some 4, some 9] ∧
        Children h' sampleTree.2 = some [some 9] :=
  ⟨by decide, by decide, by decide,
    heapAfter (PathTo doubling 22 sampleTree.1 sampleTree.2 "q" "b"), by decide!, by decide,
    by decide!⟩

/-- C12, at the failing input: on the sample tree, with `"x"` and `"i"` both
present, `PathTo("x", "i")` returns the path and leaves the receiver `x` with the
single child `a` instead of `a`, `f`; a second `PathTo("x", "i")` on the same
receiver returns nil. -/
theorem C12_pathTo_not_read_only :
    WellFormed sampleTree.1 sampleRose ∧ "x" ∈ Rose.labels sampleRose ∧
      "i" ∈ Rose.labels sampleRose ∧
      ∃ h', PathTo doubling 22 sampleTree.1 sampleTree.2 "x" "i" =
          some (h', some ["x", "f", "h", "i"]) ∧
        Children sampleTree.1 sampleTree.2 = some [some 4, some 9] ∧
        Children h' sampleTree.2 = some [some 4] ∧
        (PathTo doubling 22 h' sampleTree.2 "x" "i").map Prod.snd = some none :=
  ⟨by decide, by decide, by decide,
    heapAfter (PathTo doubling 22 sampleTree.1 sampleTree.2 "x" "i"), by decide!, by decide,
    by decide!, by decide!⟩

/-! ## Trees whose nodes share a backing array

`New` keeps the slice it is given, so nodes built from sub-slices of one array
share it, and the `append` calls of `fromPovInternal` then write the children of
one node over the children of another. The theorems of this part run the code
on two such trees, both well formed. -/

/-- C1, at a failing input: on the well-formed tree `x(p(c1), q(L))` with the
children of `p` and `q` in one array, `FromPov("L")` returns nil although the
node `L` is in the tree. -/
theorem C1_fromPov_shared_array_misses :
    WellFormed sharedPair.1 pairRose ∧ sharedPair.2 = pairRose.addr ∧
      "L" ∈ Rose.labels pairRose ∧
      (FromPov doubling 22 sharedPair.1 sharedPair.2 "L").map Prod.snd = some none :=
  ⟨by decide, by decide, by decide, by decide!⟩

/-- C2, at a failing input: on the well-formed tree `x(b(c,d), a(e))` with the
children of `b` and `a` in one array, `FromPov("b")` returns `b` with children
`c`, `d`, `x`, where `x` has the child `a` and `a` has the child `x`: the node
`e` is lost and `x`, `a` lie on a cycle. -/
theorem C2_fromPov_shared_array_loses_node :
    WellFormed sharedTree.1 smallRose ∧ sharedTree.2 = smallRose.addr ∧
      "b" ∈ Rose.labels smallRose ∧
      ∃ h', FromPov doubling 22 sharedTree.1 sharedTree.2 "b" = some (h', some 3) ∧
        Children h' 3 = some [some 0, some 1, some 5] ∧
        Children h' 5 = some [some 4] ∧ Children h' 4 = some [some 5] :=
  ⟨by decide, by decide, by decide,
    heapAfter (FromPov doubling 22 sharedTree.1 sharedTree.2 "b"), by decide!, by decide!,
    by decide!, by decide!⟩

/-- C3, at a failing input: on the well-formed tree `x(p(c1), q(L))` with the
children of `p` and `q` in one array, `FromPov("L")` returns nil and `"L"` is a
label of the tree. -/
theorem C3_fromPov_shared_array_nil_but_present :
    WellFormed sharedPair.1 pairRose ∧
      ∃ h' r, FromPov doubling 22 sharedPair.1 sharedPair.2 "L" = some (h', r) ∧
        r = none ∧ ¬ ("L" ∉ Rose.labels pairRose) :=
  ⟨by decide, heapAfter (FromPov doubling 22 sharedPair.1 sharedPair.2 "L"), none,
    by decide!, rfl, by decide⟩

/-- C4, at a failing input: on the tree `x(p(c1), q(L))` with the children of
`p` and `q` in one array, `FromPov("zz")` for the absent label `"zz"` returns nil
and leaves `q` with the child `c1` instead of `L`. -/
theorem C4_fromPov_shared_array_not_restored :
    IsTree sharedPair.1 pairRose ∧ "zz" ∉ Rose.labels pairRose ∧
      ∃ h', FromPov doubling 22 sharedPair.1 sharedPair.2 "zz" = some (h', none) ∧
        Children sharedPair.1 3 = some [some 1] ∧ Children h' 3 = some [some 0] :=
  ⟨by decide, by decide,
    heapAfter (FromPov doubling 22 sharedPair.1 sharedPair.2 "zz"), by decide!, by decide,
    by decide!⟩

/-- C5, at a failing input: on the well-formed tree `x(b(c,d), a(e))` with the
children of `b` and `a` in one array, `FromPov("b")` followed by `FromPov("x")`
returns `x`, but `a`, whose child was `e`, now has the child `x`. -/
theorem C5_fromPov_shared_array_no_round_trip :
    WellFormed sharedTree.1 smallRose ∧ "b" ∈ Rose.labels smallRose ∧
      ∃ h1 h2, FromPov doubling 22 sharedTree.1 sharedTree.2 "b" = some (h1, some 3) ∧
        FromPov doubling 22 h1 3 "x" = some (h2, some 5) ∧
        Children sharedTree.1 4 = some [some 2] ∧ Children h2 4 = some [some 5] :=
  ⟨by decide, by decide,
    heapAfter (FromPov doubling 22 sharedTree.1 sharedTree.2 "b"),
    heapAfter (FromPov doubling 22
      (heapAfter (FromPov doubling 22 sharedTree.1 sharedTree.2 "b")) 3 "x"),
    by decide!, by decide!, by decide, by decide!⟩

/-- C7, at a failing input: on the well-formed tree `x(b(c,d), a(e))` with the
children of `b` and `a` in one array, `FromPov("b")` changes the subtree `a(e)`,
which is off the path from `x` to `b`: the child of `a` was `e` and is `x`. -/
theorem C7_fromPov_shared_array_changes_off_path :
    WellFormed sharedTree.1 smallRose ∧ "b" ∈ Rose.labels smallRose ∧
      ∃ h', FromPov doubling 22 sharedTree.1 sharedTree.2 "b" = some (h', some 3) ∧
        Value h' 4 = some "a" ∧
        Children sharedTree.1 4 = some [some 2] ∧ Children h' 4 = some [some 5] :=
  ⟨by decide, by decide,
    heapAfter (FromPov doubling 22 sharedTree.1 sharedTree.2 "b"), by decide!, by decide!,
    by decide, by decide!⟩

/-- C8, at a failing input: on the well-formed tree `x(p(c1), q(L))` with the
children of `p` and `q` in one array, `PathTo("x", "L")` returns nil, not the
path `x`, `q`, `L`. -/
theorem C8_pathTo_shared_array_no_path :
    WellFormed sharedPair.1 pairRose ∧ "x" ∈ Rose.labels pairRose ∧
      "L" ∈ Rose.labels pairRose ∧
      (PathTo doubling 22 sharedPair.1 sharedPair.2 "x" "L").map Prod.snd = some none :=
  ⟨by decide, by decide, by decide, by decide!⟩

/-- C9, at a failing input: on the well-formed tree `x(p(c1), q(L))` with the
children of `p` and `q` in one array, each call on the tree as constructed,
`PathTo("L", "x")` returns `L`, `q`, `x` and `PathTo("x", "L")` returns nil. -/
theorem C9_pathTo_shared_array_not_reverse :
    WellFormed sharedPair.1 pairRose ∧
      (PathTo doubling 22 sharedPair.1 sharedPair.2 "L" "x").map Prod.snd =
        some (some ["L", "q", "x"]) ∧
      (PathTo doubling 22 sharedPair.1 sharedPair.2 "x" "L").map Prod.snd = some none :=
  ⟨by decide, by decide!, by decide!⟩

/-- C10, at a failing input: on the well-formed tree `x(p(c1), q(L))` with the
children of `p` and `q` in one array, `PathTo("x", "L")` returns nil and neither
label is absent. -/
theorem C10_pathTo_shared_array_nil_but_present :
    WellFormed sharedPair.1 pairRose ∧
      ∃ h' r, PathTo doubling 22 sharedPair.1 sharedPair.2 "x" "L" = some (h', r) ∧
        r = none ∧ ¬ ("x" ∉ Rose.labels pairRose ∨ "L" ∉ Rose.labels pairRose) :=
  ⟨by decide, heapAfter (PathTo doubling 22 sharedPair.1 sharedPair.2 "x" "L"), none,
    by decide!, rfl, by decide⟩

/-- C13, at a failing input: on the tree `x(p(c1), q(L))` with the children of
`p` and `q` in one array, `PathTo("L", "L")` returns nil, not `["L"]`. -/
theorem C13_pathTo_shared_array_self :
    IsTree sharedPair.1 pairRose ∧ "L" ∈ Rose.labels pairRose ∧
      (PathTo doubling 22 sharedPair.1 sharedPair.2 "L" "L").map Prod.snd = some none :=
  ⟨by decide, by decide, by decide!⟩

/-- C20, at a failing input: on the well-formed tree `x(p(c1), q(L))` with the
children of `p` and `q` in one array, `FromPov("L")` returns no tree, and the
path node `q` is left with the child `c1` where the claim puts `x`. -/
theorem C20_fromPov_shared_array_children :
    WellFormed sharedPair.1 pairRose ∧ "L" ∈ Rose.labels pairRose ∧
      ∃ h', FromPov doubling 22 sharedPair.1 sharedPair.2 "L" = some (h', none) ∧
        Children h' 3 = some [some 0] ∧ Children h' 1 = some [] :=
  ⟨by decide, by decide,
    heapAfter (FromPov doubling 22 sharedPair.1 sharedPair.2 "L"), by decide!, by decide!,
    by decide!⟩

/-! ## Fuel -/

/-- More fuel never changes an outcome of `fromPovInternal` or of its loop. -/
theorem fromPov_fuel_succ (grow : Nat → Nat → Nat) : ∀ fuel,
    (∀ h tr l r, fromPovInternal grow fuel h tr l = some r →
      fromPovInternal grow (fuel + 1) h tr l = some r) ∧
    (∀ h tr l tested r, fromPovLoop grow fuel h tr l tested = some r →
      fromPovLoop grow (fuel + 1) h tr l tested = some r) := by
  intro fuel
  induction fuel with
  | zero =>
    constructor
    · intro h tr l r hr
      simp [fromPovInternal] at hr
    · intro h tr l tested r hr
      simp [fromPovLoop] at hr
  | succ n ih =>
    constructor
    · intro h tr l r hr
      rw [fromPovInternal] at hr ⊢
      cases hn : h.nodes[tr]? with
      | none => simp [hn] at hr
      | some nd =>
        simp only [hn] at hr ⊢
        split
        · next hv => simpa [hv] using hr
        · next hv =>
          simp only [hv, if_false] at hr
          exact ih.2 _ _ _ _ _ hr
    · intro h tr l tested r hr
      rw [fromPovLoop] at hr ⊢
      cases hn : h.nodes[tr]? with
      | none => simp [hn] at hr
      | some nd =>
        simp only [hn] at hr ⊢
        split
        · next hv => simpa [hv] using hr
        · next hv =>
          simp only [hv, if_false] at hr
          cases hrd : readSlice h (subslice nd.children 0 1) with
          | none => simp [hrd] at hr
          | some cs =>
            cases cs with
            | nil => simp [hrd] at hr
            | cons c rest =>
              cases c with
              | none => simp [hrd] at hr
              | some child =>
                cases rest with
                | cons c2 rest2 => simp [hrd] at hr
                | nil =>
                  simp only [hrd] at hr ⊢
                  cases hs : setChildren h tr (subslice nd.children 1 nd.children.len) with
                  | none => simp [hs] at hr
                  | some h1 =>
                    simp only [hs] at hr ⊢
                    cases hc : fromPovInternal grow n h1 child l with
                    | none => simp [hc] at hr
                    | some res =>
                      rw [ih.1 _ _ _ _ hc]
                      obtain ⟨h2, node, root⟩ := res
                      simp only [hc] at hr
                      cases node with
                      | none =>
                        simp only [] at hr ⊢
                        exact ih.2 _ _ _ _ _ hr
                      | some nd2 =>
                        simp only [] at hr ⊢
                        exact hr

theorem FromPov_fuel_le (grow : Nat → Nat → Nat) {h : Heap} {tr : Nat} {l : String}
    {r : Heap × Option Nat} {fuel fuel' : Nat}
    (hr : FromPov grow fuel h tr l = some r) (hle : fuel ≤ fuel') :
    FromPov grow fuel' h tr l = some r := by
  induction hle with
  | refl => exact hr
  | step _ ih =>
    unfold FromPov at ih ⊢
    split at ih
    · simp at ih
    · next h1 x root heq =>
      rw [(fromPov_fuel_succ grow _).1 _ _ _ _ heq]
      exact ih

/-- One step of `pathTo` at a record whose label is not the one looked for. -/
theorem pathTo_succ_of {h : Heap} {tr : Nat} (v frm : String) (cs : List (Option Nat))
    (hv : Value h tr = some v) (hne : v ≠ frm) (hc : Children h tr = some cs) (fuel : Nat) :
    pathTo (fuel + 1) h tr frm = pathToLoop fuel h cs frm := by
  unfold Value at hv
  unfold Children at hc
  rw [pathTo]
  cases hn : h.nodes[tr]? with
  | none => simp [hn] at hv
  | some n =>
    simp only [hn, Option.map_some', Option.some.injEq] at hv hc
    simp only [hv, hne, if_false, hc]

/-- A record without children and with another label: `pathTo` reports nil,
if it has the fuel to report at all. -/
theorem pathTo_leaf {h : Heap} {tr : Nat} (v frm : String)
    (hv : Value h tr = some v) (hne : v ≠ frm) (hc : Children h tr = some []) :
    ∀ fuel, pathTo fuel h tr frm = none ∨ pathTo fuel h tr frm = some none
  | 0 => Or.inl (by rw [pathTo])
  | 1 => Or.inl (by rw [pathTo_succ_of v frm [] hv hne hc, pathToLoop])
  | fuel + 2 => Or.inr (by rw [pathTo_succ_of v frm [] hv hne hc, pathToLoop])

/-- The loop of `pathTo` never returns if it reaches, after children that
report nil, a child on which `pathTo` never returns. -/
theorem pathToLoop_diverges {h : Heap} (frm : String) (x : Nat) (rest : List (Option Nat))
    (hx : ∀ fuel, pathTo fuel h x frm = none) :
    ∀ (pre : List Nat),
      (∀ c ∈ pre, ∀ fuel, pathTo fuel h c frm = none ∨ pathTo fuel h c frm = some none) →
      ∀ fuel, pathToLoop fuel h (pre.map some ++ some x :: rest) frm = none
  | [], _, 0 => by rw [pathToLoop]
  | [], _, fuel + 1 => by
    simp only [List.map_nil, List.nil_append]
    rw [pathToLoop, hx]
  | c :: pre, _, 0 => by rw [pathToLoop]
  | c :: pre, hpre, fuel + 1 => by
    simp only [List.map_cons, List.cons_append]
    rw [pathToLoop]
    rcases hpre c (List.mem_cons_self _ _) fuel with hc | hc
    · rw [hc]
    · rw [hc]
      exact pathToLoop_diverges frm x rest hx pre
        (fun c' hc' => hpre c' (List.mem_cons_of_mem _ hc')) fuel

/-- On two records that are each other's only child, `pathTo` for a label
neither carries never returns. -/
theorem pathTo_cycle (h : Heap) (x a : Nat) (vx va frm : String)
    (hvx : Value h x = some vx) (hnx : vx ≠ frm) (hcx : Children h x = some [some a])
    (hva : Value h a = some va) (hna : va ≠ frm) (hca : Children h a = some [some x]) :
    ∀ fuel, pathTo fuel h x frm = none ∧ pathTo fuel h a frm = none := by
  intro fuel
  induction fuel using Nat.strong_induction_on with
  | _ fuel ih =>
    match fuel with
    | 0 => exact ⟨by rw [pathTo], by rw [pathTo]⟩
    | 1 =>
      exact ⟨by rw [pathTo_succ_of vx frm _ hvx hnx hcx, pathToLoop],
        by rw [pathTo_succ_of va frm _ hva hna hca, pathToLoop]⟩
    | f + 2 =>
      have := ih f (by omega)
      constructor
      · rw [pathTo_succ_of vx frm _ hvx hnx hcx, pathToLoop, this.2]
      · rw [pathTo_succ_of va frm _ hva hna hca, pathToLoop, this.1]

/-- On the tree `x(b(c,d), a(e))` with the children of `b` and `a` in one
array, `PathTo("e", "b")` does not return, whatever the fuel: `FromPov("b")`
leaves `x` and `a` as each other's child, and `pathTo` goes round. -/
theorem sharedTree_pathTo_diverges :
    ∀ fuel, PathTo doubling fuel sharedTree.1 sharedTree.2 "e" "b" = none := by
  intro fuel
  have e3 : FromPov doubling 3 sharedTree.1 sharedTree.2 "b" =
      some (heapAfter (FromPov doubling 3 sharedTree.1 sharedTree.2 "b"), some 3) := by
    decide!
  by_cases hf : 3 ≤ fuel
  · have hcyc := pathTo_cycle
      (heapAfter (FromPov doubling 3 sharedTree.1 sharedTree.2 "b")) 5 4 "x" "a" "e"
      (by decide!) (by decide) (by decide!) (by decide!) (by decide) (by decide!)
    have hdiv : ∀ f, pathTo f (heapAfter (FromPov doubling 3 sharedTree.1 sharedTree.2 "b"))
        3 "e" = none := by
      intro f
      cases f with
      | zero => rw [pathTo]
      | succ f =>
        rw [pathTo_succ_of "b" "e" [some 0, some 1, some 5]
          (by decide!) (by decide) (by decide!)]
        refine pathToLoop_diverges "e" 5 [] (fun f' => (hcyc f').1) [0, 1] ?_ f
        intro c hc
        simp only [List.mem_cons, List.mem_singleton, List.not_mem_nil, or_false] at hc
        rcases hc with rfl | rfl
        · exact pathTo_leaf "c" "e" (by decide!) (by decide) (by decide!)
        · exact pathTo_leaf "d" "e" (by decide!) (by decide) (by decide!)
    unfold PathTo
    rw [FromPov_fuel_le doubling e3 hf]
    simp only [hdiv]
  · have : fuel = 0 ∨ fuel = 1 ∨ fuel = 2 := by omega
    rcases this with rfl | rfl | rfl <;> decide!

/-- C16, at a failing input: the tree `x(b(c,d), a(e))` built with the children
listed and the same tree built with the children of `b` and `a` in one array are
both well formed and have the same labels and parent/child pairs; yet
`PathTo("e", "b")` returns `e`, `a`, `x`, `b` on the first and does not return
on the second. -/
theorem C16_pathTo_shared_array_differs :
    WellFormed unsharedTree.1 smallRose ∧ WellFormed sharedTree.1 smallRose ∧
      SameUpToSiblingOrder smallRose smallRose ∧
      (PathTo doubling 22 unsharedTree.1 unsharedTree.2 "e" "b").map Prod.snd =
        some (some ["e", "a", "x", "b"]) ∧
      ∀ fuel, (PathTo doubling fuel sharedTree.1 sharedTree.2 "e" "b").map Prod.snd = none :=
  ⟨by decide, by decide, by decide, by decide!,
    fun fuel => by rw [sharedTree_pathTo_diverges fuel]; rfl⟩

/-- C17, at a failing input: on the finite, well-formed tree `x(b(c,d), a(e))`
with the children of `b` and `a` in one array, `PathTo("e", "b")` does not
return, whatever the fuel. Its call of `FromPov("b")` returns and leaves `x` and
`a` as each other's only child; `pathTo` then recurses round the two for ever. -/
theorem C17_pathTo_shared_array_never_returns :
    WellFormed sharedTree.1 smallRose ∧ sharedTree.2 = smallRose.addr ∧
      "e" ∈ Rose.labels smallRose ∧ "b" ∈ Rose.labels smallRose ∧
      (∃ h', FromPov doubling 22 sharedTree.1 sharedTree.2 "b" = some (h', some 3) ∧
        Children h' 5 = some [some 4] ∧ Children h' 4 = some [some 5]) ∧
      ∀ fuel, PathTo doubling fuel sharedTree.1 sharedTree.2 "e" "b" = none :=
  ⟨by decide, by decide, by decide, by decide,
    ⟨heapAfter (FromPov doubling 22 sharedTree.1 sharedTree.2 "b"), by decide!, by decide!,
      by decide!⟩,
    sharedTree_pathTo_diverges⟩

end Pov

namespace Letter

/-! ## Facts about frequency maps -/

theorem lookup_add (m : FreqMap) (r r' : Char) (v : Nat) :
    lookup (add m r v) r' =
      if r' = r then some ((lookup m r).getD 0 + v) else lookup m r' := by
  induction m with
  | nil =>
    by_cases h : r' = r
    · simp [add, lookup, h]
    · have h' : ¬ r = r' := fun e => h e.symm
      simp [add, lookup, h, h']
  | cons e rest ih =>
    obtain ⟨k, c⟩ := e
    by_cases hk : k = r
    · subst hk
      by_cases h : r' = k
      · subst h
        simp [add, lookup]
      · have h' : ¬ k = r' := fun e => h e.symm
        simp [add, lookup, h, h']
    · by_cases h : r' = r
      · subst h
        simp [add, lookup, hk, ih]
      · by_cases hk' : k = r'
        · simp [add, lookup, hk, hk', h]
        · simp [add, lookup, hk, hk', h, ih]

theorem keys_add (m : FreqMap) (r : Char) (v : Nat) :
    ∀ k, k ∈ (add m r v).map Prod.fst ↔ k = r ∨ k ∈ m.map Prod.fst := by
  induction m with
  | nil => intro k; simp [add]
  | cons e rest ih =>
    obtain ⟨k0, c⟩ := e
    intro k
    by_cases hk : k0 = r
    · subst hk
      simp [add]
    · simp only [add, hk, if_false, List.map_cons, List.mem_cons, ih]
      tauto

theorem nodup_add (m : FreqMap) (r : Char) (v : Nat) (hm : (m.map Prod.fst).Nodup) :
    ((add m r v).map Prod.fst).Nodup := by
  induction m with
  | nil => simp [add]
  | cons e rest ih =>
    obtain ⟨k0, c⟩ := e
    simp only [List.map_cons, List.nodup_cons] at hm
    by_cases hk : k0 = r
    · subst hk
      simpa [add] using hm
    · simp only [add, hk, if_false, List.map_cons, List.nodup_cons]
      refine ⟨?_, ih hm.2⟩
      rw [keys_add]
      rintro (h | h)
      · exact hk h
      · exact hm.1 h

theorem lookup_foldl_add (cs : List Char) : ∀ (m : FreqMap) (r : Char),
    lookup (cs.foldl (fun m r => add m r 1) m) r =
      if cs.count r = 0 then lookup m r else some ((lookup m r).getD 0 + cs.count r) := by
  induction cs with
  | nil => intro m r; simp
  | cons c cs ih =>
    intro m r
    rw [List.foldl_cons, ih, lookup_add]
    by_cases h : r = c
    · subst h
      simp only [if_true, Option.getD_some, List.count_cons_self]
      by_cases h0 : cs.count r = 0
      · simp [h0]
      · simp only [h0, if_false, Nat.add_eq_zero, one_ne_zero, and_false]
        congr 1
        omega
    · have h' : ¬ c = r := fun e => h e.symm
      simp [h, List.count_cons, h']

theorem nodup_foldl_add (cs : List Char) : ∀ (m : FreqMap), (m.map Prod.fst).Nodup →
    ((cs.foldl (fun m r => add m r 1) m).map Prod.fst).Nodup := by
  induction cs with
  | nil => intro m hm; simpa using hm
  | cons c cs ih => intro m hm; exact ih _ (nodup_add m c 1 hm)

theorem lookup_FrequencyChannel (text : String) (r : Char) :
    lookup (FrequencyChannel text) r =
      if text.data.count r = 0 then none else some (text.data.count r) := by
  unfold FrequencyChannel countRunes
  rw [lookup_foldl_add]
  simp [lookup]

theorem nodup_FrequencyChannel (text : String) :
    ((FrequencyChannel text).map Prod.fst).Nodup :=
  nodup_foldl_add _ _ (by simp)

theorem lookup_SequentialFold (texts : List String) : ∀ (m : FreqMap) (r : Char),
    lookup (texts.foldl (fun frequencies text => FrequencyLine text frequencies) m) r =
      if occurrences texts r = 0 then lookup m r
      else some ((lookup m r).getD 0 + occurrences texts r) := by
  induction texts with
  | nil => intro m r; simp [occurrences]
  | cons t ts ih =>
    intro m r
    rw [List.foldl_cons, ih]
    have hocc : occurrences (t :: ts) r = t.data.count r + occurrences ts r := by
      simp [occurrences]
    rw [hocc]
    unfold FrequencyLine countRunes
    rw [lookup_foldl_add]
    by_cases h1 : t.data.count r = 0 <;> by_cases h2 : occurrences ts r = 0
    · simp [h1, h2]
    · simp [h1, h2]
    · simp [h1, h2]
    · simp only [h1, h2, if_false, Option.getD_some, Nat.add_eq_zero, and_self]
      congr 1
      omega

theorem lookup_eq_none_of_not_mem (m : FreqMap) (r : Char) (hr : r ∉ m.map Prod.fst) :
    lookup m r = none := by
  induction m with
  | nil => rfl
  | cons e rest ih =>
    obtain ⟨k, c⟩ := e
    simp only [List.map_cons, List.mem_cons, not_or] at hr
    have hk : ¬ k = r := fun e => hr.1 e.symm
    simp [lookup, hk, ih hr.2]

/-- In a map (distinct keys) the entries are exactly what `lookup` finds. -/
theorem mem_iff_lookup (m : FreqMap) (hm : (m.map Prod.fst).Nodup) (r : Char) (v : Nat) :
    (r, v) ∈ m ↔ lookup m r = some v := by
  induction m with
  | nil => simp [lookup]
  | cons e rest ih =>
    obtain ⟨k, c⟩ := e
    simp only [List.map_cons, List.nodup_cons] at hm
    by_cases hk : k = r
    · subst hk
      simp only [List.mem_cons, Prod.mk.injEq, true_and, lookup, if_true, Option.some.injEq]
      constructor
      · rintro (h | h)
        · exact h.symm
        · exact absurd (List.mem_map_of_mem Prod.fst h) hm.1
      · intro h
        exact Or.inl h.symm
    · have hk' : ¬ r = k := fun e => hk e.symm
      simp [lookup, hk, hk', ih hm.2]

/-- The order of the entries of a map does not matter to `lookup`. -/
theorem lookup_perm {m m' : FreqMap} (hp : m.Perm m') (hm : (m'.map Prod.fst).Nodup)
    (r : Char) : lookup m r = lookup m' r := by
  have hm0 : (m.map Prod.fst).Nodup := (hp.map Prod.fst).nodup_iff.2 hm
  cases h : lookup m' r with
  | none =>
    cases h0 : lookup m r with
    | none => rfl
    | some v =>
      have := (mem_iff_lookup m' hm r v).1 (hp.subset ((mem_iff_lookup m hm0 r v).2 h0))
      rw [h] at this
      cases this
  | some v =>
    exact (mem_iff_lookup m hm0 r v).1 (hp.symm.subset ((mem_iff_lookup m' hm r v).2 h))

theorem lookup_mergeInto (m : FreqMap) : ∀ (f : FreqMap), (m.map Prod.fst).Nodup →
    ∀ r, lookup (mergeInto f m) r =
      match lookup m r with
      | none => lookup f r
      | some v => some ((lookup f r).getD 0 + v) := by
  induction m with
  | nil => intro f _ r; simp [mergeInto, lookup]
  | cons e rest ih =>
    obtain ⟨k, c⟩ := e
    intro f hm r
    simp only [List.map_cons, List.nodup_cons] at hm
    have hstep : mergeInto f ((k, c) :: rest) = mergeInto (add f k c) rest := rfl
    rw [hstep, ih _ hm.2, lookup_add]
    by_cases hk : r = k
    · subst hk
      simp [lookup, lookup_eq_none_of_not_mem rest r hm.1]
    · have hk' : ¬ k = r := fun e => hk e.symm
      simp [lookup, hk, hk']

theorem nodup_mergeInto (m : FreqMap) : ∀ (f : FreqMap), (f.map Prod.fst).Nodup →
    ((mergeInto f m).map Prod.fst).Nodup := by
  induction m with
  | nil => intro f hf; simpa [mergeInto] using hf
  | cons e rest ih =>
    intro f hf
    exact ih _ (nodup_add f e.1 e.2 hf)

theorem lookup_foldl_mergeInto (r : Char) (ms : List FreqMap) : ∀ (f : FreqMap),
    (∀ m ∈ ms, (m.map Prod.fst).Nodup ∧ lookup m r ≠ some 0) →
    lookup (ms.foldl mergeInto f) r =
      if totalOf ms r = 0 then lookup f r else some ((lookup f r).getD 0 + totalOf ms r) := by
  induction ms with
  | nil => intro f _; simp [totalOf]
  | cons m ms ih =>
    intro f hms
    have hm := hms m (List.mem_cons_self _ _)
    rw [List.foldl_cons, ih _ (fun m' hm' => hms m' (List.mem_cons_of_mem _ hm')),
      lookup_mergeInto m f hm.1]
    have htot : totalOf (m :: ms) r = (lookup m r).getD 0 + totalOf ms r := by
      simp [totalOf]
    rw [htot]
    cases hl : lookup m r with
    | none => simp
    | some v =>
      have hv : v ≠ 0 := fun e => hm.2 (by rw [hl, e])
      by_cases h2 : totalOf ms r = 0
      · simp [h2, hv]
      · simp only [h2, if_false, Option.getD_some, Nat.add_eq_zero, hv, false_and]
        congr 1
        omega

theorem nodup_foldl_mergeInto (ms : List FreqMap) : ∀ (f : FreqMap),
    (f.map Prod.fst).Nodup → ((ms.foldl mergeInto f).map Prod.fst).Nodup := by
  induction ms with
  | nil => intro f hf; simpa using hf
  | cons m ms ih => intro f hf; exact ih _ (nodup_mergeInto m f hf)

theorem totalOf_sent (texts : List String) (r : Char) :
    totalOf (texts.map FrequencyChannel) r = occurrences texts r := by
  induction texts with
  | nil => rfl
  | cons t ts ih =>
    have h1 : totalOf ((t :: ts).map FrequencyChannel) r =
        (lookup (FrequencyChannel t) r).getD 0 + totalOf (ts.map FrequencyChannel) r := by
      simp [totalOf]
    have h2 : occurrences (t :: ts) r = t.data.count r + occurrences ts r := by
      simp [occurrences]
    rw [h1, h2, ih, lookup_FrequencyChannel]
    by_cases h : t.data.count r = 0 <;> simp [h]

theorem totalOf_received {received sent : List FreqMap} (r : Char)
    (h : List.Forall₂ List.Perm received sent)
    (hs : ∀ s ∈ sent, (s.map Prod.fst).Nodup) : totalOf received r = totalOf sent r := by
  induction h with
  | nil => rfl
  | cons hp _ ih =>
    have h1 := lookup_perm hp (hs _ (List.mem_cons_self _ _)) r
    have h2 := ih (fun s hs' => hs s (List.mem_cons_of_mem _ hs'))
    simp only [totalOf, List.map_cons, List.sum_cons] at h2 ⊢
    rw [h1, h2]

theorem received_ok {received sent : List FreqMap} (r : Char)
    (h : List.Forall₂ List.Perm received sent)
    (hs : ∀ s ∈ sent, (s.map Prod.fst).Nodup ∧ lookup s r ≠ some 0) :
    ∀ m ∈ received, (m.map Prod.fst).Nodup ∧ lookup m r ≠ some 0 := by
  induction h with
  | nil => intro m hm; simp at hm
  | cons hp _ ih =>
    intro m hm
    have h0 := hs _ (List.mem_cons_self _ _)
    rcases List.mem_cons.1 hm with rfl | hm
    · exact ⟨(hp.map Prod.fst).nodup_iff.2 h0.1, by rw [lookup_perm hp h0.1]; exact h0.2⟩
    · exact ih (fun s hs' => hs s (List.mem_cons_of_mem _ hs')) m hm

/-- Every run of `ConcurrentFrequency` yields a map, and for every rune the
count in it is the number of occurrences over all the texts, with no entry
for a rune that does not occur. -/
theorem lookup_ConcurrentFrequency {texts : List String} {received : List FreqMap}
    (hrun : IsRun texts received) (r : Char) :
    lookup (ConcurrentFrequency received) r =
      if occurrences texts r = 0 then none else some (occurrences texts r) := by
  obtain ⟨sent, hperm, hall⟩ := hrun
  have hsent : ∀ s ∈ sent, (s.map Prod.fst).Nodup ∧ lookup s r ≠ some 0 := by
    intro s hs
    obtain ⟨t, _, rfl⟩ := List.mem_map.1 (hperm.subset hs)
    refine ⟨nodup_FrequencyChannel t, ?_⟩
    rw [lookup_FrequencyChannel]
    by_cases h : t.data.count r = 0 <;> simp [h]
  have htot : totalOf received r = occurrences texts r := by
    rw [totalOf_received r hall (fun s hs => (hsent s hs).1), ← totalOf_sent]
    exact ((hperm.map _).sum_eq)
  unfold ConcurrentFrequency
  rw [lookup_foldl_mergeInto r received [] (received_ok r hall hsent), htot]
  simp [lookup]

theorem lookup_SequentialFrequency (texts : List String) (r : Char) :
    lookup (SequentialFrequency texts) r =
      if occurrences texts r = 0 then none else some (occurrences texts r) := by
  unfold SequentialFrequency
  rw [lookup_SequentialFold]
  simp [lookup]

theorem nodup_SequentialFrequency (texts : List String) :
    ((SequentialFrequency texts).map Prod.fst).Nodup := by
  unfold SequentialFrequency
  suffices h : ∀ (m : FreqMap), (m.map Prod.fst).Nodup →
      ((texts.foldl (fun frequencies text => FrequencyLine text frequencies) m).map
        Prod.fst).Nodup from h [] (by simp)
  induction texts with
  | nil => intro m hm; simpa using hm
  | cons t ts ih => intro m hm; exact ih _ (nodup_foldl_add _ _ hm)

/-- Maps with the same `lookup` have the same entries. -/
theorem perm_of_lookup_eq {m m' : FreqMap} (hm : (m.map Prod.fst).Nodup)
    (hm' : (m'.map Prod.fst).Nodup) (h : ∀ r, lookup m r = lookup m' r) : m.Perm m' := by
  rw [List.perm_ext_iff_of_nodup (List.Nodup.of_map _ hm) (List.Nodup.of_map _ hm')]
  rintro ⟨r, v⟩
  rw [mem_iff_lookup m hm, mem_iff_lookup m' hm', h]

/-- C18: for every list of texts and every run of `ConcurrentFrequency` on it
(every order in which the per-text maps are received from the channel, every
order in which `range` visits their entries), the result equals
`SequentialFrequency(texts)` as a map: same entries, and for every rune the
count is the number of occurrences of the rune over all the texts, with no
entry for a rune that occurs in no text. -/
theorem C18_concurrent_eq_sequential (texts : List String) (received : List FreqMap)
    (hrun : IsRun texts received) :
    (ConcurrentFrequency received).Perm (SequentialFrequency texts) ∧
      ∀ r, lookup (ConcurrentFrequency received) r = lookup (SequentialFrequency texts) r ∧
        lookup (SequentialFrequency texts) r =
          if occurrences texts r = 0 then none else some (occurrences texts r) := by
  have hl : ∀ r, lookup (ConcurrentFrequency received) r =
      lookup (SequentialFrequency texts) r := fun r => by
    rw [lookup_ConcurrentFrequency hrun, lookup_SequentialFrequency]
  refine ⟨perm_of_lookup_eq ?_ (nodup_SequentialFrequency texts) hl,
    fun r => ⟨hl r, lookup_SequentialFrequency texts r⟩⟩
  exact nodup_foldl_mergeInto received [] (by simp)

theorem C18_concurrent_eq_sequential_witness :
    IsRun ["abca", "bd"] [FrequencyChannel "bd", (FrequencyChannel "abca").reverse] ∧
      (ConcurrentFrequency [FrequencyChannel "bd", (FrequencyChannel "abca").reverse]).Perm
        (SequentialFrequency ["abca", "bd"]) ∧
      ∀ r, lookup (ConcurrentFrequency
            [FrequencyChannel "bd", (FrequencyChannel "abca").reverse]) r =
          lookup (SequentialFrequency ["abca", "bd"]) r ∧
        lookup (SequentialFrequency ["abca", "bd"]) r =
          if occurrences ["abca", "bd"] r = 0 then none
          else some (occurrences ["abca", "bd"] r) :=
  have hrun : IsRun ["abca", "bd"]
      [FrequencyChannel "bd", (FrequencyChannel "abca").reverse] :=
    ⟨[FrequencyChannel "bd", FrequencyChannel "abca"], List.Perm.swap _ _ _,
      List.Forall₂.cons (List.Perm.refl _)
        (List.Forall₂.cons (List.reverse_perm _) List.Forall₂.nil)⟩
  ⟨hrun, C18_concurrent_eq_sequential _ _ hrun⟩

end Letter

namespace Logs

/-! ## Facts about `Replace` -/

theorem toNat_ofNat_of_valid (n : Nat) (h : n.isValidChar) : (Char.ofNat n).toNat = n := by
  simp only [Char.ofNat, h, dite_true, Char.ofNatAux, Char.toNat]
  rfl

theorem validRune_iff (r : Int) : validRune r = true ↔ 0 ≤ r ∧ r.toNat.isValidChar := by
  unfold validRune Nat.isValidChar
  simp only [Bool.or_eq_true, Bool.and_eq_true, decide_eq_true_eq]
  constructor
  · intro h
    refine ⟨by omega, ?_⟩
    show r.toNat < 55296 ∨ 57343 < r.toNat ∧ r.toNat < 1114112
    omega
  · rintro ⟨h0, h⟩
    have h' : r.toNat < 55296 ∨ 57343 < r.toNat ∧ r.toNat < 1114112 := h
    omega

theorem validRune_char (c : Char) : validRune (c.toNat : Int) = true := by
  rw [validRune_iff]
  exact ⟨Int.natCast_nonneg _, by simpa using c.valid⟩

theorem validRune_encodable (r : Int) : validRune (encodable r) = true := by
  unfold encodable
  split
  · assumption
  · decide

theorem encodable_of_valid {r : Int} (h : validRune r = true) : encodable r = r := by
  simp [encodable, h]

/-- Decoding what `string(runes)` encoded gives the runes back, with `U+FFFD`
in place of each rune that has no encoding. -/
theorem toRunes_ofRunes (runes : List Int) : toRunes (ofRunes runes) = runes.map encodable := by
  unfold toRunes ofRunes
  rw [List.map_map]
  apply List.map_congr_left
  intro r _
  have h := (validRune_iff _).1 (validRune_encodable r)
  simp only [Function.comp]
  rw [toNat_ofNat_of_valid _ h.2]
  exact Int.toNat_of_nonneg h.1

theorem replaceLoop_getElem? (oldRune newRune : Int) :
    ∀ (n idx : Nat) (runes : List Int), idx + n = runes.length → ∀ i,
      (replaceLoop oldRune newRune n idx runes)[i]? =
        if idx ≤ i then (runes[i]?).map (fun ch => if ch = oldRune then newRune else ch)
        else runes[i]? := by
  intro n
  induction n with
  | zero =>
    intro idx runes hlen i
    simp only [replaceLoop]
    split
    · rw [List.getElem?_eq_none (by omega)]
      rfl
    · rfl
  | succ n ih =>
    intro idx runes hlen i
    have hidx : idx < runes.length := by omega
    have hget : runes[idx]? = some runes[idx] := List.getElem?_eq_getElem hidx
    rw [replaceLoop, hget]
    simp only []
    rw [ih (idx + 1) _ (by split <;> (try simp only [List.length_set]) <;> omega)]
    by_cases hi : idx + 1 ≤ i
    · have h1 : idx ≤ i := by omega
      have h2 : idx ≠ i := by omega
      simp only [hi, h1, if_true]
      split
      · rw [List.getElem?_set_ne h2]
      · rfl
    · by_cases hi2 : idx = i
      · subst hi2
        simp only [hi, if_false, le_refl, if_true, hget, Option.map_some']
        split
        · next h => rw [List.getElem?_set_self hidx]
        · exact hget
      · have h1 : ¬ idx ≤ i := by omega
        simp only [hi, h1, if_false]
        split
        · rw [List.getElem?_set_ne hi2]
        · rfl

theorem replaceLoop_eq_map (oldRune newRune : Int) (runes : List Int) :
    replaceLoop oldRune newRune runes.length 0 runes =
      runes.map (fun ch => if ch = oldRune then newRune else ch) := by
  apply List.ext_getElem?
  intro i
  rw [replaceLoop_getElem? oldRune newRune runes.length 0 runes (by simp)]
  simp

/-- The runes of the result of `Replace`. -/
theorem toRunes_Replace (log : GoString) (oldRune newRune : Int) :
    toRunes (Replace log oldRune newRune) =
      (toRunes log).map (fun ch => if ch = oldRune then encodable newRune else ch) := by
  unfold Replace
  simp only []
  rw [toRunes_ofRunes, replaceLoop_eq_map, List.map_map]
  apply List.map_congr_left
  intro ch hch
  simp only [Function.comp]
  split
  · rfl
  · obtain ⟨c, _, rfl⟩ := List.mem_map.1 hch
    exact encodable_of_valid (validRune_char c)

/-- C19 fails as stated: with the log `a-b`, `oldRune = '-'` and `newRune =
0x110000`, a rune without an encoding, the log has `oldRune` at position 1 and
the result has `U+FFFD` there, not `newRune`; and with the log `a\uFFFDb`,
`oldRune = U+FFFD` and `newRune = 0xD800`, two different runes, the result still
contains `oldRune`. -/
theorem C19_replace_unencodable_newRune :
    (toRunes ['a', '-', 'b'])[1]? = some 45 ∧
      (toRunes (Replace ['a', '-', 'b'] 45 0x110000))[1]? = some 0xFFFD ∧
      (toRunes (Replace ['a', '-', 'b'] 45 0x110000))[1]? ≠ some 0x110000 ∧
      (0xFFFD : Int) ≠ 0xD800 ∧
      (0xFFFD : Int) ∈ toRunes (Replace ['a', Char.ofNat 0xFFFD, 'b'] 0xFFFD 0xD800) := by
  decide

/-- C19 as amended: for every log (as a sequence of runes), every `oldRune` and
every `newRune` that has a UTF-8 encoding (a Unicode scalar value),
`Replace(log, oldRune, newRune)` has as many runes as `log`, has `newRune` at
every position where `log` has `oldRune` and the rune of `log` at every other
position; so when `oldRune` differs from `newRune` the result contains no
`oldRune`. -/
theorem C19_replace_encodable (log : GoString) (oldRune newRune : Int)
    (hnew : validRune newRune = true) :
    (toRunes (Replace log oldRune newRune)).length = (toRunes log).length ∧
      (∀ (i : Nat) (ch : Int), (toRunes log)[i]? = some ch →
        (toRunes (Replace log oldRune newRune))[i]? =
          some (if ch = oldRune then newRune else ch)) ∧
      (oldRune ≠ newRune → oldRune ∉ toRunes (Replace log oldRune newRune)) := by
  rw [toRunes_Replace, encodable_of_valid hnew]
  refine ⟨by simp, ?_, ?_⟩
  · intro i ch hch
    simp [hch]
  · intro hne hin
    obtain ⟨ch, _, hch⟩ := List.mem_map.1 hin
    split at hch
    · exact hne hch.symm
    · next h => exact h hch

theorem C19_replace_encodable_witness :
    validRune 95 = true ∧
      (toRunes (Replace ['a', '-', 'b'] 45 95)).length = (toRunes ['a', '-', 'b']).length ∧
      (∀ (i : Nat) (ch : Int), (toRunes ['a', '-', 'b'])[i]? = some ch →
        (toRunes (Replace ['a', '-', 'b'] 45 95))[i]? = some (if ch = 45 then 95 else ch)) ∧
      ((45 : Int) ≠ 95 → (45 : Int) ∉ toRunes (Replace ['a', '-', 'b'] 45 95)) :=
  ⟨by decide, C19_replace_encodable ['a', '-', 'b'] 45 95 (by decide)⟩

end Logs
